import Mathlib

/- Verification model of src/relaxation_technique_sequential.c.

   Modeling conventions:
   * C doubles are modeled as rationals; every arithmetic step exercised by the
     theorems below (sums of four grid values divided by 4, differences and
     comparisons against the threshold) is exact in both representations for
     the concrete configurations considered.
   * C int arithmetic on sizes, counts and indices is nonnegative in every
     configuration the program reaches, so it is modeled with Nat; where a
     statement is specifically about signed index arithmetic, Int is used.
   * ceil((double)M/(double)tc) on line 75 is modeled as the exact Nat ceiling
     (M + tc - 1) / tc, which agrees with the double computation for all
     feasible grid sizes.
   * malloc'ed memory is uninitialized: a freshly allocated buffer is modeled
     as a list of Option values that are all none, and a freshly allocated
     array of BLOCK structs as a list of Option BLOCK that is all none.
   * The program hardcodes thread_count = 1 (line 205), so the whole-run model
     (solverStep / solverIter / solverLoop) is instantiated with the single
     block produced by makeBlocks at thread_count = 1; the partitioning code
     itself (makeBlocks, lines 70-102) is modeled for arbitrary thread_count.
   * The relaxation loop (lines 119-136) writes scratch slots b_i for every
     m_i in [start_index, end_index], i.e. relative indices 0..end-start
     inclusive, while line 84/95 allocates only end-start doubles.  The
     behavioral layer (BlockState/processCells) gives the scratch list the
     footprint the loop actually addresses, length end-start+1; the allocation
     shortfall itself is recorded by the theorems about allocBlock.
-/

set_option maxHeartbeats 1000000

namespace Relaxation

/-- Number of mutable linear indices: matrix_size*matrix_size - matrix_size*2
    (source line 73). -/
def mutatableCount (size : Nat) : Nat := size * size - size * 2

/-- Equal block size: ceil(M / thread_count) (source line 75), modeled as the
    exact Nat ceiling. -/
def equalBlockSize (size tc : Nat) : Nat := (mutatableCount size + tc - 1) / tc

/-- Size of the remainder block: M % equal_block_size (source line 76). -/
def lastBlockSize (size tc : Nat) : Nat := mutatableCount size % equalBlockSize size tc

/-- Number of equal-sized blocks: (M - last_block_size) / equal_block_size
    (source line 77). -/
def equalBlockCount (size tc : Nat) : Nat :=
  (mutatableCount size - lastBlockSize size tc) / equalBlockSize size tc

/-- A block as built by makeBlocks: an inclusive index range plus its scratch
    buffer.  malloc leaves the buffer contents indeterminate, modeled as a
    list of none. -/
structure BLOCK where
  start_index : Nat
  end_index : Nat
  new_values : List (Option ℚ)
deriving DecidableEq

/-- Block construction with scratch allocation (source lines 80-85 and 91-96):
    malloc of (end_index - start_index) doubles, contents indeterminate. -/
def allocBlock (s e : Nat) : BLOCK :=
  { start_index := s, end_index := e, new_values := List.replicate (e - s) none }

/-- The blocks array built by makeBlocks (source lines 70-102): malloc of
    thread_count BLOCK slots (uninitialized, so all none), then the
    equal-sized blocks are stored at indices 0..equal_block_count-1 and, when
    the remainder is nonzero, the remainder block at index thread_count-1. -/
def makeBlocks (size tc : Nat) : List (Option BLOCK) :=
  let M := mutatableCount size
  let E := equalBlockSize size tc
  let arr := (List.range (equalBlockCount size tc)).foldl
    (fun (a : List (Option BLOCK)) i =>
      a.set i (some (allocBlock (size + E * i) (size + E * (i + 1) - 1))))
    (List.replicate tc (none : Option BLOCK))
  if lastBlockSize size tc ≠ 0 then
    arr.set (tc - 1)
      (some (allocBlock (size + M - lastBlockSize size tc) (size * size - size - 1)))
  else arr

/-- The equal-sized block number i of the partition. -/
def eqBlock (size tc i : Nat) : BLOCK :=
  allocBlock (size + equalBlockSize size tc * i) (size + equalBlockSize size tc * (i + 1) - 1)

/-- The remainder block of the partition. -/
def remBlock (size tc : Nat) : BLOCK :=
  allocBlock (size + mutatableCount size - lastBlockSize size tc) (size * size - size - 1)

/-- The array index of the partition block whose range holds a given matrix
    index (used to state disjointness and coverage of the partition). -/
def idxBlock (size tc idx : Nat) : Nat :=
  if idx - size < equalBlockSize size tc * equalBlockCount size tc then
    (idx - size) / equalBlockSize size tc
  else tc - 1

/-- Relative scratch indices written by the processBlock loop for a block:
    b_i = m_i - start_index for m_i in [start_index, end_index]
    (source lines 119-135). -/
def blockWriteIndices (b : BLOCK) : List Nat :=
  List.range (b.end_index + 1 - b.start_index)

/-- The matrix as built by makeMatrix (source lines 45-64): malloc of
    size*size doubles, then every cell (i,j) is stored: 1.0 if i==0 or j==0,
    else 0.0.  Every slot is written by the double loop, so the indeterminate
    malloc contents never survive; the accumulator therefore starts from an
    arbitrary fixed buffer of the right length. -/
def makeMatrix (size : Nat) : List ℚ :=
  (List.range size).foldl
    (fun mat i =>
      (List.range size).foldl
        (fun m j => m.set (i * size + j) (if i = 0 ∨ j = 0 then 1 else 0)) mat)
    (List.replicate (size * size) 0)

/-- Threshold derived from the decimal precision: pow(0.1, decimal_precision)
    (source line 207). -/
def decimalValue (p : Nat) : ℚ := (1 / 10) ^ p

/-- The four neighbor offsets read by getSuroundingAverage, as C int
    arithmetic (source lines 106-109): top, right, bottom, left. -/
def neighborIndicesZ (size index : Int) : List Int :=
  [index - size, index + 1, index + size, index - 1]

/-- Average of the four cells surrounding a cell at a given index (source
    lines 105-112).  In every call the program makes, the four indices are in
    range (see the bounds theorem below), so total Nat indexing with a default
    agrees with the C reads. -/
def getSuroundingAverage (size : Nat) (matrix : List ℚ) (index : Nat) : ℚ :=
  (matrix.getD (index - size) 0 + matrix.getD (index + 1) 0 +
   matrix.getD (index + size) 0 + matrix.getD (index - 1) 0) / 4

/-- A block's state during the run: its range and the current scratch values.
    The scratch list is the loop footprint (see the header comment); its
    initial contents are a parameter of the run because malloc leaves them
    indeterminate. -/
structure BlockState where
  start_index : Nat
  end_index : Nat
  new_values : List ℚ
deriving DecidableEq

/-- The value the processBlock loop stores into the scratch slot of absolute
    cell m: the surrounding average for a non-edge cell, the current matrix
    value for a left/right-column edge cell (source lines 125-134). -/
def cellValue (size : Nat) (matrix : List ℚ) (m : Nat) : ℚ :=
  if m % size ≠ 0 ∧ (m + 1) % size ≠ 0 then getSuroundingAverage size matrix m
  else matrix.getD m 0

/-- The processBlock loop (source lines 119-136), iteration m_i = s + d with n
    slots remaining, d counting up from 0.  vals is the scratch buffer, flag
    the global value_change_flag; the change test is the source's signed
    comparison diff > decimal_value. -/
def processCells (size : Nat) (thresh : ℚ) (matrix : List ℚ) (s : Nat) :
    Nat → Nat → List ℚ → Bool → List ℚ × Bool
  | _, 0, vals, flag => (vals, flag)
  | d, n + 1, vals, flag =>
    let m_i := s + d
    if m_i % size ≠ 0 ∧ (m_i + 1) % size ≠ 0 then
      let new_value := getSuroundingAverage size matrix m_i
      let diff := new_value - vals.getD d 0
      processCells size thresh matrix s (d + 1) n (vals.set d new_value)
        (if thresh < diff then true else flag)
    else
      processCells size thresh matrix s (d + 1) n (vals.set d (matrix.getD m_i 0)) flag

/-- processBlock (source lines 115-138): run the loop over the whole range of
    the block. -/
def processBlock (size : Nat) (thresh : ℚ) (matrix : List ℚ) (blk : BlockState)
    (flag : Bool) : BlockState × Bool :=
  let r := processCells size thresh matrix blk.start_index 0
    (blk.end_index + 1 - blk.start_index) blk.new_values flag
  ({ blk with new_values := r.1 }, r.2)

/-- The relaxation pass of one cycle: processBlock for every block in order
    (source lines 229-231), the value_change_flag threaded through. -/
def processAllBlocks (size : Nat) (thresh : ℚ) (matrix : List ℚ) :
    List BlockState → Bool → List BlockState × Bool
  | [], flag => ([], flag)
  | blk :: rest, flag =>
    let r := processBlock size thresh matrix blk flag
    let rr := processAllBlocks size thresh matrix rest r.2
    (r.1 :: rr.1, rr.2)

/-- The inner commit loop of updateMatrix for one block (source lines
    146-156): copy scratch slot d back to matrix index s + d, for non-edge
    cells only. -/
def updateCells (size s : Nat) (vals : List ℚ) : Nat → Nat → List ℚ → List ℚ
  | _, 0, mat => mat
  | d, n + 1, mat =>
    let m_i := s + d
    if m_i % size ≠ 0 ∧ (m_i + 1) % size ≠ 0 then
      updateCells size s vals (d + 1) n (mat.set m_i (vals.getD d 0))
    else
      updateCells size s vals (d + 1) n mat

/-- updateMatrix (source lines 141-158): commit every block's scratch values
    into the matrix. -/
def updateMatrix (size : Nat) : List BlockState → List ℚ → List ℚ
  | [], mat => mat
  | blk :: rest, mat =>
    updateMatrix size rest
      (updateCells size blk.start_index blk.new_values 0
        (blk.end_index + 1 - blk.start_index) mat)

/-- The mutable state of the run: the shared matrix and the blocks with their
    scratch buffers. -/
structure SolverState where
  matrix : List ℚ
  blocks : List BlockState
deriving DecidableEq

/-- One iteration of the main loop body (source lines 226-250): relax all
    blocks starting from a cleared flag, then commit if the flag was raised.
    Returns the new state and the flag of this cycle. -/
def solverStep (size : Nat) (thresh : ℚ) (st : SolverState) : SolverState × Bool :=
  let r := processAllBlocks size thresh st.matrix st.blocks false
  if r.2 then ({ matrix := updateMatrix size r.1 st.matrix, blocks := r.1 }, true)
  else ({ st with blocks := r.1 }, false)

/-- The state after n iterations of the main loop body. -/
def solverIter (size : Nat) (thresh : ℚ) (st : SolverState) : Nat → SolverState
  | 0 => st
  | n + 1 => (solverStep size thresh (solverIter size thresh st n)).1

/-- The main convergence loop (source lines 226-250) with fuel: returns the
    final matrix and the number of relaxation cycles executed, or none if the
    fuel runs out before convergence.  When the flag stays down the loop
    breaks before committing, so the pre-pass matrix is the result. -/
def solverLoop (size : Nat) (thresh : ℚ) : Nat → SolverState → Nat → Option (List ℚ × Nat)
  | 0, _, _ => none
  | fuel + 1, st, cycles =>
    let r := solverStep size thresh st
    if r.2 then solverLoop size thresh fuel r.1 (cycles + 1)
    else some (st.matrix, cycles + 1)

/-- Initial solver state for the program's configuration thread_count = 1
    (source line 205): the boundary-initialized matrix and the single block
    [size, size*size-size-1] that makeBlocks produces for one thread (see the
    makeBlocks_single lemma below).  The initial scratch contents are a
    parameter because the source leaves them uninitialized. -/
def runInit (size : Nat) (scratch : List ℚ) : SolverState :=
  { matrix := makeMatrix size,
    blocks := [{ start_index := size, end_index := size * size - size - 1,
                 new_values := scratch }] }

/-- The boundary invariant: every cell in row 0 or column 0 holds 1.0. -/
def boundaryOK (size : Nat) (mat : List ℚ) : Prop :=
  ∀ i j, i < size → j < size → (i = 0 ∨ j = 0) → mat.getD (i * size + j) 0 = 1

/-- Every block's range starts at or after the first interior row. -/
def blocksLow (size : Nat) (blocks : List BlockState) : Prop :=
  ∀ blk ∈ blocks, size ≤ blk.start_index

/-- Reading a list updated at one position: the new value exactly at an
    in-range updated position, the old value elsewhere. -/
theorem getD_set {α : Type} (l : List α) (i j : Nat) (a d : α) :
    (l.set i a).getD j d = if i = j ∧ j < l.length then a else l.getD j d := by
  induction l generalizing i j with
  | nil => simp
  | cons x xs ih =>
    cases i with
    | zero =>
      cases j with
      | zero => simp
      | succ m => simp
    | succ n =>
      cases j with
      | zero => simp
      | succ m =>
        simp only [List.set_cons_succ, List.getD_cons_succ, List.length_cons]
        rw [ih n m]
        by_cases h : n = m ∧ m < xs.length
        · rw [if_pos h, if_pos ⟨by omega, by omega⟩]
        · rw [if_neg h, if_neg (by omega)]

/-- Reading a replicated list. -/
theorem getD_replicate {α : Type} (n k : Nat) (x d : α) :
    (List.replicate n x).getD k d = if k < n then x else d := by
  induction n generalizing k with
  | zero => simp
  | succ m ih =>
    cases k with
    | zero => simp [List.replicate]
    | succ j =>
      simp only [List.replicate, List.getD_cons_succ]
      rw [ih j]
      by_cases h : j < m
      · rw [if_pos h, if_pos (by omega)]
      · rw [if_neg h, if_neg (by omega)]

/-- A fold that only performs set operations preserves the length. -/
theorem foldl_length_of {α β : Type} (xs : List β) (l : List α)
    (F : List α → β → List α) (h : ∀ m b, (F m b).length = m.length) :
    (xs.foldl F l).length = l.length := by
  induction xs generalizing l with
  | nil => rfl
  | cons a as ih => rw [List.foldl_cons, ih, h]

/-- Characterization of the makeBlocks store loop: folding set i (f i) over
    i = 0..n-1. -/
theorem foldSet_getD (n : Nat) (l : List (Option BLOCK)) (f : Nat → BLOCK) (k : Nat) :
    ((List.range n).foldl (fun a i => a.set i (some (f i))) l).getD k none =
      if k < n ∧ k < l.length then some (f k) else l.getD k none := by
  induction n with
  | zero => simp
  | succ m ih =>
    rw [List.range_succ, List.foldl_append, List.foldl_cons, List.foldl_nil]
    have hlen : ((List.range m).foldl (fun a i => a.set i (some (f i))) l).length
        = l.length :=
      foldl_length_of _ _ _ (fun mm b => List.length_set mm b _)
    rw [getD_set, hlen, ih]
    by_cases hk : k = m
    · subst hk
      by_cases hl : k < l.length
      · rw [if_pos ⟨rfl, hl⟩, if_pos ⟨by omega, hl⟩]
      · rw [if_neg (by omega), if_neg (by omega), if_neg (by omega)]
    · rw [if_neg (by omega)]
      by_cases hc : k < m ∧ k < l.length
      · rw [if_pos hc, if_pos ⟨by omega, hc.2⟩]
      · rw [if_neg hc, if_neg (by omega)]

/-- Characterization of the inner makeMatrix loop: row i writes cells
    i*size+0 .. i*size+(n-1). -/
theorem rowFold_getD (size0 i n : Nat) (v : Nat → Nat → ℚ) (l : List ℚ) (k : Nat) :
    ((List.range n).foldl (fun m j => m.set (i * size0 + j) (v i j)) l).getD k 0 =
      if i * size0 ≤ k ∧ k < i * size0 + n ∧ k < l.length then v i (k - i * size0)
      else l.getD k 0 := by
  induction n with
  | zero =>
    rw [List.range_zero, List.foldl_nil, if_neg (by omega)]
  | succ m ih =>
    rw [List.range_succ, List.foldl_append, List.foldl_cons, List.foldl_nil]
    have hlen : ((List.range m).foldl (fun mm j => mm.set (i * size0 + j) (v i j)) l).length
        = l.length :=
      foldl_length_of _ _ _ (fun mm b => List.length_set mm _ _)
    rw [getD_set, hlen, ih]
    by_cases hk : k = i * size0 + m
    · subst hk
      by_cases hl : i * size0 + m < l.length
      · rw [if_pos ⟨rfl, hl⟩, if_pos ⟨by omega, by omega, hl⟩]
        congr 1
        omega
      · rw [if_neg (by omega), if_neg (by omega), if_neg (by omega)]
    · rw [if_neg (by omega)]
      by_cases hc : i * size0 ≤ k ∧ k < i * size0 + m ∧ k < l.length
      · rw [if_pos hc, if_pos ⟨hc.1, by omega, hc.2.2⟩]
      · rw [if_neg hc, if_neg (by omega)]

/-- Characterization of the whole makeMatrix double loop over the first n
    rows: cell k of the result is v (k/size) (k%size) for k < n*size. -/
theorem gridFold_getD (size0 n : Nat) (v : Nat → Nat → ℚ) (l : List ℚ) (k : Nat) :
    ((List.range n).foldl
        (fun mat i => (List.range size0).foldl
          (fun m j => m.set (i * size0 + j) (v i j)) mat) l).getD k 0 =
      if k < n * size0 ∧ k < l.length then v (k / size0) (k % size0)
      else l.getD k 0 := by
  induction n with
  | zero => simp
  | succ m ih =>
    rw [List.range_succ, List.foldl_append, List.foldl_cons, List.foldl_nil]
    have hlen : ((List.range m).foldl
        (fun mat i => (List.range size0).foldl
          (fun mm j => mm.set (i * size0 + j) (v i j)) mat) l).length = l.length :=
      foldl_length_of _ _ _
        (fun mat b => foldl_length_of _ _ _ (fun mm c => List.length_set mm _ _))
    rw [rowFold_getD, hlen, ih]
    have hms : m * size0 + size0 = (m + 1) * size0 := by ring
    by_cases hrow : m * size0 ≤ k ∧ k < m * size0 + size0 ∧ k < l.length
    · have hs0 : 0 < size0 := by omega
      have hdiv : k / size0 = m := by
        have ha : m ≤ k / size0 := (Nat.le_div_iff_mul_le hs0).2 (by
          have := Nat.mul_comm m size0
          omega)
        have hb : k / size0 < m + 1 := (Nat.div_lt_iff_lt_mul hs0).2 (by
          have := Nat.mul_comm (m + 1) size0
          omega)
        omega
      have hmod : k % size0 = k - m * size0 := by
        have hdm := Nat.div_add_mod k size0
        rw [hdiv] at hdm
        have := Nat.mul_comm size0 m
        omega
      rw [if_pos hrow, if_pos ⟨by omega, hrow.2.2⟩, hdiv, hmod]
    · rw [if_neg hrow]
      by_cases hc : k < m * size0 ∧ k < l.length
      · rw [if_pos hc, if_pos ⟨by omega, hc.2⟩]
      · rw [if_neg hc, if_neg (by omega)]

/-- The length of the created matrix is size*size. -/
theorem makeMatrix_length (size : Nat) : (makeMatrix size).length = size * size := by
  unfold makeMatrix
  rw [foldl_length_of _ _ _
    (fun mat b => foldl_length_of _ _ _ (fun mm c => List.length_set mm _ _))]
  exact List.length_replicate _ _

/-- Cell contents of the created matrix: 1.0 on row 0 and column 0, 0.0 on
    every other cell. -/
theorem makeMatrix_getD (size k : Nat) (hk : k < size * size) :
    (makeMatrix size).getD k 0 = if k / size = 0 ∨ k % size = 0 then 1 else 0 := by
  unfold makeMatrix
  rw [gridFold_getD]
  rw [if_pos ⟨hk, by rw [List.length_replicate]; exact hk⟩]

/-- For a grid of size at least 3 there are at least 3 mutable cells, and the
    last mutable index size + M - 1 is size*size - size - 1. -/
theorem mutatable_facts (size : Nat) (h : 3 ≤ size) :
    3 ≤ mutatableCount size ∧
    size + mutatableCount size - 1 = size * size - size - 1 := by
  have h3 : 3 * size ≤ size * size := Nat.mul_le_mul_right size h
  unfold mutatableCount
  omega

/-- Arithmetic facts about the partition quantities computed by makeBlocks:
    the equal block size is positive, the equal blocks plus the remainder
    account for exactly the M mutable cells, the remainder is smaller than an
    equal block, and the number of stored blocks never exceeds thread_count
    (strictly, when a remainder block exists). -/
theorem partition_facts (size tc : Nat) (hsize : 3 ≤ size) (htc : 1 ≤ tc) :
    1 ≤ equalBlockSize size tc ∧
    equalBlockSize size tc * equalBlockCount size tc + lastBlockSize size tc
      = mutatableCount size ∧
    lastBlockSize size tc < equalBlockSize size tc ∧
    equalBlockCount size tc ≤ tc ∧
    (lastBlockSize size tc ≠ 0 → equalBlockCount size tc < tc) := by
  have hM : 3 ≤ mutatableCount size := (mutatable_facts size hsize).1
  have htc0 : 0 < tc := htc
  -- the ceiling property of the equal block size
  have hceil : mutatableCount size ≤ tc * equalBlockSize size tc := by
    unfold equalBlockSize
    have hdm := Nat.div_add_mod (mutatableCount size + tc - 1) tc
    have hlt := Nat.mod_lt (mutatableCount size + tc - 1) htc0
    omega
  have hE : 1 ≤ equalBlockSize size tc := by
    unfold equalBlockSize
    have := (Nat.le_div_iff_mul_le htc0).2 (show 1 * tc ≤ mutatableCount size + tc - 1 by omega)
    omega
  have hE0 : 0 < equalBlockSize size tc := hE
  -- div/mod decomposition of M by the equal block size
  have hdm := Nat.div_add_mod (mutatableCount size) (equalBlockSize size tc)
  have hmod : lastBlockSize size tc < equalBlockSize size tc :=
    Nat.mod_lt (mutatableCount size) hE0
  have hCq : equalBlockCount size tc = mutatableCount size / equalBlockSize size tc := by
    unfold equalBlockCount lastBlockSize
    have hsub : mutatableCount size - mutatableCount size % equalBlockSize size tc
        = equalBlockSize size tc * (mutatableCount size / equalBlockSize size tc) := by
      unfold lastBlockSize at hdm
      omega
    rw [hsub, Nat.mul_div_cancel_left _ hE0]
  have hdecomp : equalBlockSize size tc * equalBlockCount size tc + lastBlockSize size tc
      = mutatableCount size := by
    rw [hCq]
    exact hdm
  have hCtc : equalBlockCount size tc ≤ tc := by
    by_contra hcon
    have h1 : tc + 1 ≤ equalBlockCount size tc := by omega
    have h2 : equalBlockSize size tc * (tc + 1) ≤
        equalBlockSize size tc * equalBlockCount size tc :=
      Nat.mul_le_mul_left _ h1
    have h3 : equalBlockSize size tc * (tc + 1)
        = equalBlockSize size tc * tc + equalBlockSize size tc := by ring
    have h4 : equalBlockSize size tc * tc = tc * equalBlockSize size tc := by ring
    omega
  refine ⟨hE, hdecomp, hmod, hCtc, ?_⟩
  intro hL0
  by_contra hcon
  have hCeq : equalBlockCount size tc = tc := by omega
  rw [hCeq] at hdecomp
  have h4 : equalBlockSize size tc * tc = tc * equalBlockSize size tc := by ring
  omega

/-- Entry k of the blocks array: the remainder block at index thread_count-1
    when the remainder is nonzero, equal block k for k below the equal block
    count, and an uninitialized slot otherwise. -/
theorem makeBlocks_getD (size tc k : Nat) (hk : k < tc) :
    (makeBlocks size tc).getD k none =
      if lastBlockSize size tc ≠ 0 ∧ k = tc - 1 then some (remBlock size tc)
      else if k < equalBlockCount size tc then some (eqBlock size tc k)
      else none := by
  unfold makeBlocks
  simp only
  have hlen : ((List.range (equalBlockCount size tc)).foldl
      (fun (a : List (Option BLOCK)) i =>
        a.set i (some (allocBlock (size + equalBlockSize size tc * i)
          (size + equalBlockSize size tc * (i + 1) - 1))))
      (List.replicate tc (none : Option BLOCK))).length = tc := by
    rw [foldl_length_of _ _ _ (fun mm b => List.length_set mm _ _)]
    exact List.length_replicate _ _
  by_cases hL : lastBlockSize size tc ≠ 0
  · rw [if_pos hL, getD_set, hlen]
    by_cases hk1 : k = tc - 1
    · rw [if_pos ⟨by omega, by omega⟩, if_pos ⟨hL, hk1⟩]
      rfl
    · rw [if_neg (by omega), if_neg (by omega)]
      rw [foldSet_getD, List.length_replicate]
      by_cases hc : k < equalBlockCount size tc
      · rw [if_pos ⟨hc, hk⟩, if_pos hc]
        rfl
      · rw [if_neg (by omega), if_neg hc, getD_replicate, if_pos hk]
  · rw [if_neg hL, if_neg (by simp at hL; simp [hL])]
    rw [foldSet_getD, List.length_replicate]
    by_cases hc : k < equalBlockCount size tc
    · rw [if_pos ⟨hc, hk⟩, if_pos hc]
      rfl
    · rw [if_neg (by omega), if_neg hc, getD_replicate, if_pos hk]

/-- With a single thread, makeBlocks produces exactly one block covering the
    whole mutable range [size, size*size - size - 1]. -/
theorem makeBlocks_single (size : Nat) (hsize : 3 ≤ size) :
    makeBlocks size 1 = [some (allocBlock size (size * size - size - 1))] := by
  have hM := (mutatable_facts size hsize).1
  have hE : equalBlockSize size 1 = mutatableCount size := by
    unfold equalBlockSize
    omega
  have hL : lastBlockSize size 1 = 0 := by
    unfold lastBlockSize
    rw [hE]
    exact Nat.mod_self _
  have hC : equalBlockCount size 1 = 1 := by
    unfold equalBlockCount
    rw [hE, hL, Nat.sub_zero, Nat.div_self (by omega)]
  unfold makeBlocks
  simp only [hL, hC, ne_eq, not_true_eq_false, if_false, ite_false]
  have hr1 : List.range 1 = [0] := by decide
  rw [hr1, List.foldl_cons, List.foldl_nil]
  have harr : (List.replicate 1 (none : Option BLOCK)).set 0
      (some (allocBlock (size + equalBlockSize size 1 * 0)
        (size + equalBlockSize size 1 * (0 + 1) - 1)))
      = [some (allocBlock (size + equalBlockSize size 1 * 0)
        (size + equalBlockSize size 1 * (0 + 1) - 1))] := rfl
  rw [harr]
  have h1 : size + equalBlockSize size 1 * 0 = size := by omega
  have h2 : size + equalBlockSize size 1 * (0 + 1) - 1 = size * size - size - 1 := by
    rw [hE]
    have := (mutatable_facts size hsize).2
    omega
  rw [h1, h2]

/-- A stored block contains a matrix index exactly when that index is in the
    mutable range and the block's array position is the one idxBlock assigns
    to the index.  This is the key fact behind disjointness and coverage. -/
theorem block_contains_iff (size tc k idx : Nat) (b : BLOCK)
    (hsize : 3 ≤ size) (htc : 1 ≤ tc) (hk : k < tc)
    (hb : (makeBlocks size tc).getD k none = some b) :
    (b.start_index ≤ idx ∧ idx ≤ b.end_index) ↔
      (size ≤ idx ∧ idx ≤ size * size - size - 1 ∧ idxBlock size tc idx = k) := by
  obtain ⟨hM, hlast⟩ := mutatable_facts size hsize
  obtain ⟨hE1, hdecomp, hmod, hCtc, hLC⟩ := partition_facts size tc hsize htc
  have hE0 : 0 < equalBlockSize size tc := hE1
  rw [makeBlocks_getD size tc k hk] at hb
  split at hb
  case isTrue hcase =>
    injection hb with hbe
    subst hbe
    simp only [remBlock, allocBlock]
    constructor
    · rintro ⟨hs, he⟩
      refine ⟨by omega, he, ?_⟩
      unfold idxBlock
      rw [if_neg (by omega)]
      omega
    · rintro ⟨hs, he, hidx⟩
      refine ⟨?_, he⟩
      unfold idxBlock at hidx
      by_cases hbr : idx - size < equalBlockSize size tc * equalBlockCount size tc
      · rw [if_pos hbr] at hidx
        have hdivlt : (idx - size) / equalBlockSize size tc < equalBlockCount size tc := by
          apply (Nat.div_lt_iff_lt_mul hE0).2
          have := Nat.mul_comm (equalBlockCount size tc) (equalBlockSize size tc)
          omega
        have hClt : equalBlockCount size tc < tc := hLC hcase.1
        omega
      · rw [if_neg hbr] at hidx
        omega
  case isFalse hcase =>
    split at hb
    case isTrue hkC =>
      injection hb with hbe
      subst hbe
      simp only [eqBlock, allocBlock]
      have hmulsucc : equalBlockSize size tc * (k + 1)
          = equalBlockSize size tc * k + equalBlockSize size tc := by ring
      have hmulC : equalBlockSize size tc * (k + 1)
          ≤ equalBlockSize size tc * equalBlockCount size tc :=
        Nat.mul_le_mul_left _ (by omega)
      constructor
      · rintro ⟨hs, he⟩
        refine ⟨by omega, by omega, ?_⟩
        unfold idxBlock
        rw [if_pos (by omega)]
        have ha : k ≤ (idx - size) / equalBlockSize size tc := by
          apply (Nat.le_div_iff_mul_le hE0).2
          have := Nat.mul_comm k (equalBlockSize size tc)
          omega
        have hb2 : (idx - size) / equalBlockSize size tc < k + 1 := by
          apply (Nat.div_lt_iff_lt_mul hE0).2
          have := Nat.mul_comm (k + 1) (equalBlockSize size tc)
          omega
        omega
      · rintro ⟨hs, he, hidx⟩
        unfold idxBlock at hidx
        by_cases hbr : idx - size < equalBlockSize size tc * equalBlockCount size tc
        · rw [if_pos hbr] at hidx
          subst hidx
          have hdm2 := Nat.div_add_mod (idx - size) (equalBlockSize size tc)
          have hm2 := Nat.mod_lt (idx - size) hE0
          have hmulsucc2 : equalBlockSize size tc * ((idx - size) / equalBlockSize size tc + 1)
              = equalBlockSize size tc * ((idx - size) / equalBlockSize size tc)
                + equalBlockSize size tc := by ring
          omega
        · rw [if_neg hbr] at hidx
          by_cases hL0 : lastBlockSize size tc = 0
          · omega
          · exact absurd ⟨hL0, by omega⟩ hcase
    case isFalse hkC =>
      simp at hb

/-- Every mutable matrix index is contained in the stored block that idxBlock
    assigns to it. -/
theorem block_covers (size tc idx : Nat) (hsize : 3 ≤ size) (htc : 1 ≤ tc)
    (hlo : size ≤ idx) (hhi : idx ≤ size * size - size - 1) :
    idxBlock size tc idx < tc ∧
    ∃ b, (makeBlocks size tc).getD (idxBlock size tc idx) none = some b ∧
      b.start_index ≤ idx ∧ idx ≤ b.end_index := by
  obtain ⟨hM, hlast⟩ := mutatable_facts size hsize
  obtain ⟨hE1, hdecomp, hmod, hCtc, hLC⟩ := partition_facts size tc hsize htc
  have hE0 : 0 < equalBlockSize size tc := hE1
  by_cases hbr : idx - size < equalBlockSize size tc * equalBlockCount size tc
  · have hidx : idxBlock size tc idx = (idx - size) / equalBlockSize size tc := by
      unfold idxBlock
      rw [if_pos hbr]
    have hdivlt : (idx - size) / equalBlockSize size tc < equalBlockCount size tc := by
      apply (Nat.div_lt_iff_lt_mul hE0).2
      have := Nat.mul_comm (equalBlockCount size tc) (equalBlockSize size tc)
      omega
    have hklt : idxBlock size tc idx < tc := by
      rw [hidx]
      omega
    have hnotrem : ¬(lastBlockSize size tc ≠ 0 ∧
        (idx - size) / equalBlockSize size tc = tc - 1) := by
      rintro ⟨hL0, hkeq⟩
      have := hLC hL0
      omega
    refine ⟨hklt, eqBlock size tc ((idx - size) / equalBlockSize size tc), ?_, ?_, ?_⟩
    · rw [hidx, makeBlocks_getD size tc _ (by omega), if_neg hnotrem, if_pos hdivlt]
    · simp only [eqBlock, allocBlock]
      have hml := Nat.div_mul_le_self (idx - size) (equalBlockSize size tc)
      have hcm : (idx - size) / equalBlockSize size tc * equalBlockSize size tc
          = equalBlockSize size tc * ((idx - size) / equalBlockSize size tc) := by ring
      omega
    · simp only [eqBlock, allocBlock]
      have hdm2 := Nat.div_add_mod (idx - size) (equalBlockSize size tc)
      have hm2 := Nat.mod_lt (idx - size) hE0
      have hmulsucc : equalBlockSize size tc * ((idx - size) / equalBlockSize size tc + 1)
          = equalBlockSize size tc * ((idx - size) / equalBlockSize size tc)
            + equalBlockSize size tc := by ring
      omega
  · have hL0 : lastBlockSize size tc ≠ 0 := by
      intro h0
      omega
    have hidx : idxBlock size tc idx = tc - 1 := by
      unfold idxBlock
      rw [if_neg hbr]
    refine ⟨by omega, remBlock size tc, ?_, ?_, ?_⟩
    · rw [hidx, makeBlocks_getD size tc _ (by omega), if_pos ⟨hL0, rfl⟩]
    · simp only [remBlock, allocBlock]
      omega
    · simp only [remBlock, allocBlock]
      omega

/-- Every stored block is nonempty: its start does not exceed its end. -/
theorem written_block_nonempty (size tc k : Nat) (b : BLOCK)
    (hsize : 3 ≤ size) (htc : 1 ≤ tc) (hk : k < tc)
    (hb : (makeBlocks size tc).getD k none = some b) :
    b.start_index ≤ b.end_index := by
  obtain ⟨hM, hlast⟩ := mutatable_facts size hsize
  obtain ⟨hE1, hdecomp, hmod, hCtc, hLC⟩ := partition_facts size tc hsize htc
  rw [makeBlocks_getD size tc k hk] at hb
  split at hb
  case isTrue hcase =>
    injection hb with hbe
    subst hbe
    simp only [remBlock, allocBlock]
    have hL1 : 1 ≤ lastBlockSize size tc := by omega
    omega
  case isFalse hcase =>
    split at hb
    case isTrue hkC =>
      injection hb with hbe
      subst hbe
      simp only [eqBlock, allocBlock]
      have hmulsucc : equalBlockSize size tc * (k + 1)
          = equalBlockSize size tc * k + equalBlockSize size tc := by ring
      omega
    case isFalse hkC =>
      simp at hb

/-- The processBlock loop preserves the scratch buffer length. -/
theorem processCells_length (size : Nat) (thresh : ℚ) (matrix : List ℚ) (s : Nat)
    (n d : Nat) (vals : List ℚ) (flag : Bool) :
    ((processCells size thresh matrix s d n vals flag).1).length = vals.length := by
  induction n generalizing d vals flag with
  | zero => rfl
  | succ m ih =>
    unfold processCells
    by_cases hedge : (s + d) % size ≠ 0 ∧ (s + d + 1) % size ≠ 0
    · rw [if_pos hedge]
      rw [ih]
      exact List.length_set _ _ _
    · rw [if_neg hedge]
      rw [ih]
      exact List.length_set _ _ _

/-- The processBlock loop does not touch scratch slots outside the index
    window it still has to visit. -/
theorem processCells_untouched (size : Nat) (thresh : ℚ) (matrix : List ℚ) (s : Nat)
    (n d k : Nat) (vals : List ℚ) (flag : Bool) (hk : k < d ∨ d + n ≤ k) :
    ((processCells size thresh matrix s d n vals flag).1).getD k 0 = vals.getD k 0 := by
  induction n generalizing d vals flag with
  | zero => rfl
  | succ m ih =>
    unfold processCells
    by_cases hedge : (s + d) % size ≠ 0 ∧ (s + d + 1) % size ≠ 0
    · rw [if_pos hedge, ih _ _ _ (by omega), getD_set, if_neg (by omega)]
    · rw [if_neg hedge, ih _ _ _ (by omega), getD_set, if_neg (by omega)]

/-- After the processBlock loop, every visited in-range scratch slot k holds
    cellValue of the cell s + k. -/
theorem processCells_values (size : Nat) (thresh : ℚ) (matrix : List ℚ) (s : Nat)
    (n d k : Nat) (vals : List ℚ) (flag : Bool)
    (hdk : d ≤ k) (hkn : k < d + n) (hklen : k < vals.length) :
    ((processCells size thresh matrix s d n vals flag).1).getD k 0
      = cellValue size matrix (s + k) := by
  induction n generalizing d vals flag with
  | zero => omega
  | succ m ih =>
    unfold processCells
    by_cases hke : k = d
    · subst hke
      by_cases hedge : (s + k) % size ≠ 0 ∧ (s + k + 1) % size ≠ 0
      · rw [if_pos hedge]
        rw [processCells_untouched _ _ _ _ _ _ _ _ _ (by omega)]
        rw [getD_set, if_pos ⟨rfl, hklen⟩]
        unfold cellValue
        rw [if_pos hedge]
      · rw [if_neg hedge]
        rw [processCells_untouched _ _ _ _ _ _ _ _ _ (by omega)]
        rw [getD_set, if_pos ⟨rfl, hklen⟩]
        unfold cellValue
        rw [if_neg hedge]
    · by_cases hedge : (s + d) % size ≠ 0 ∧ (s + d + 1) % size ≠ 0
      · rw [if_pos hedge]
        rw [ih _ _ _ (by omega) (by omega) (by rw [List.length_set]; exact hklen)]
      · rw [if_neg hedge]
        rw [ih _ _ _ (by omega) (by omega) (by rw [List.length_set]; exact hklen)]

/-- If every scratch slot the loop will visit already holds the value the loop
    is about to compute, the loop raises no flag beyond the one it was given:
    every diff is zero, which never exceeds a nonnegative threshold. -/
theorem processCells_stable_flag (size : Nat) (thresh : ℚ) (matrix : List ℚ) (s : Nat)
    (n d : Nat) (vals : List ℚ) (flag : Bool) (hth : 0 ≤ thresh)
    (hstable : ∀ k, d ≤ k → k < d + n → vals.getD k 0 = cellValue size matrix (s + k)) :
    (processCells size thresh matrix s d n vals flag).2 = flag := by
  induction n generalizing d vals flag with
  | zero => rfl
  | succ m ih =>
    unfold processCells
    by_cases hedge : (s + d) % size ≠ 0 ∧ (s + d + 1) % size ≠ 0
    · rw [if_pos hedge]
      have hv : vals.getD d 0 = getSuroundingAverage size matrix (s + d) := by
        rw [hstable d (by omega) (by omega)]
        unfold cellValue
        rw [if_pos hedge]
      have hdiff : getSuroundingAverage size matrix (s + d) - vals.getD d 0 = 0 := by
        rw [hv, sub_self]
      simp only [hdiff]
      rw [if_neg (not_lt.mpr hth)]
      apply ih
      intro k hdk hkn
      rw [getD_set, if_neg (by omega)]
      exact hstable k (by omega) (by omega)
    · rw [if_neg hedge]
      apply ih
      intro k hdk hkn
      rw [getD_set, if_neg (by omega)]
      exact hstable k (by omega) (by omega)

/-- processBlock keeps the block's range and buffer length, and fills every
    scratch slot with cellValue of its cell. -/
theorem processBlock_values (size : Nat) (thresh : ℚ) (matrix : List ℚ)
    (blk : BlockState) (flag : Bool)
    (hlen : blk.new_values.length = blk.end_index + 1 - blk.start_index) :
    ((processBlock size thresh matrix blk flag).1).start_index = blk.start_index ∧
    ((processBlock size thresh matrix blk flag).1).end_index = blk.end_index ∧
    ((processBlock size thresh matrix blk flag).1).new_values.length
      = blk.end_index + 1 - blk.start_index ∧
    ∀ k, k < blk.end_index + 1 - blk.start_index →
      ((processBlock size thresh matrix blk flag).1).new_values.getD k 0
        = cellValue size matrix (blk.start_index + k) := by
  refine ⟨rfl, rfl, ?_, ?_⟩
  · unfold processBlock
    simp only
    rw [processCells_length, hlen]
  · intro k hk
    unfold processBlock
    simp only
    exact processCells_values size thresh matrix blk.start_index _ 0 k blk.new_values
      flag (by omega) (by omega) (by omega)

/-- processBlock leaves the flag unchanged when the scratch buffer already
    holds the values the pass computes. -/
theorem processBlock_stable_flag (size : Nat) (thresh : ℚ) (matrix : List ℚ)
    (blk : BlockState) (flag : Bool) (hth : 0 ≤ thresh)
    (hstable : ∀ k, k < blk.end_index + 1 - blk.start_index →
      blk.new_values.getD k 0 = cellValue size matrix (blk.start_index + k)) :
    (processBlock size thresh matrix blk flag).2 = flag := by
  unfold processBlock
  simp only
  apply processCells_stable_flag size thresh matrix blk.start_index _ 0
    blk.new_values flag hth
  intro k h0 hk
  exact hstable k (by omega)

/-- A relaxation pass never changes any block's range. -/
theorem processAllBlocks_ranges (size : Nat) (thresh : ℚ) (matrix : List ℚ)
    (l : List BlockState) (flag : Bool) :
    ∀ blk1 ∈ (processAllBlocks size thresh matrix l flag).1,
      ∃ blk ∈ l, blk1.start_index = blk.start_index ∧ blk1.end_index = blk.end_index := by
  induction l generalizing flag with
  | nil =>
    intro blk1 h
    simp [processAllBlocks] at h
  | cons blk rest ih =>
    intro blk1 h
    unfold processAllBlocks at h
    rcases List.mem_cons.1 h with h1 | h1
    · subst h1
      exact ⟨blk, List.mem_cons_self _ _, rfl, rfl⟩
    · obtain ⟨blk2, hm, he⟩ := ih _ _ h1
      exact ⟨blk2, List.mem_cons_of_mem _ hm, he⟩

/-- After a relaxation pass over well-sized blocks, every output block is
    well-sized, keeps its range, and its scratch holds exactly the values the
    pass computes from the matrix. -/
theorem processAllBlocks_out (size : Nat) (thresh : ℚ) (matrix : List ℚ)
    (l : List BlockState) (flag : Bool)
    (hlen : ∀ blk ∈ l, blk.new_values.length = blk.end_index + 1 - blk.start_index) :
    ∀ blk1 ∈ (processAllBlocks size thresh matrix l flag).1,
      blk1.new_values.length = blk1.end_index + 1 - blk1.start_index ∧
      ∀ k, k < blk1.end_index + 1 - blk1.start_index →
        blk1.new_values.getD k 0 = cellValue size matrix (blk1.start_index + k) := by
  induction l generalizing flag with
  | nil =>
    intro blk1 h
    simp [processAllBlocks] at h
  | cons blk rest ih =>
    intro blk1 h
    unfold processAllBlocks at h
    rcases List.mem_cons.1 h with h1 | h1
    · subst h1
      obtain ⟨hs, he, hl, hv⟩ := processBlock_values size thresh matrix blk flag
        (hlen blk (List.mem_cons_self _ _))
      refine ⟨by rw [hl, hs, he], ?_⟩
      intro k hk
      rw [hs, he] at hk
      rw [hs]
      exact hv k hk
    · exact ih _ (fun b hb => hlen b (List.mem_cons_of_mem _ hb)) _ h1

/-- A relaxation pass over blocks whose scratch already holds the values the
    pass computes leaves the flag unchanged. -/
theorem processAllBlocks_stable_flag (size : Nat) (thresh : ℚ) (matrix : List ℚ)
    (l : List BlockState) (flag : Bool) (hth : 0 ≤ thresh)
    (hstable : ∀ blk ∈ l, ∀ k, k < blk.end_index + 1 - blk.start_index →
      blk.new_values.getD k 0 = cellValue size matrix (blk.start_index + k)) :
    (processAllBlocks size thresh matrix l flag).2 = flag := by
  induction l generalizing flag with
  | nil => rfl
  | cons blk rest ih =>
    unfold processAllBlocks
    simp only
    rw [ih _ (fun b hb => hstable b (List.mem_cons_of_mem _ hb))]
    exact processBlock_stable_flag size thresh matrix blk flag hth
      (hstable blk (List.mem_cons_self _ _))

/-- The commit loop for one block never writes a cell of row 0 or column 0:
    cells below index s are out of its range and cells of column 0 fail the
    edge test. -/
theorem updateCells_boundary (size s : Nat) (vals : List ℚ) (n d k : Nat)
    (mat : List ℚ) (hs : size ≤ s) (hk : k < size ∨ k % size = 0) :
    (updateCells size s vals d n mat).getD k 0 = mat.getD k 0 := by
  induction n generalizing d mat with
  | zero => rfl
  | succ m ih =>
    unfold updateCells
    by_cases hedge : (s + d) % size ≠ 0 ∧ (s + d + 1) % size ≠ 0
    · have hne : ¬(s + d = k ∧ k < mat.length) := by
        rintro ⟨heq, hlt⟩
        rcases hk with hk2 | hk2
        · omega
        · rw [← heq] at hk2
          exact hedge.1 hk2
      rw [if_pos hedge, ih, getD_set, if_neg hne]
    · rw [if_neg hedge, ih]

/-- The commit step never writes a cell of row 0 or column 0 as long as every
    block's range starts in the interior. -/
theorem updateMatrix_boundary (size : Nat) (blocks : List BlockState) (mat : List ℚ)
    (k : Nat) (hlow : blocksLow size blocks) (hk : k < size ∨ k % size = 0) :
    (updateMatrix size blocks mat).getD k 0 = mat.getD k 0 := by
  induction blocks generalizing mat with
  | nil => rfl
  | cons blk rest ih =>
    unfold updateMatrix
    rw [ih _ (fun b hb => hlow b (List.mem_cons_of_mem _ hb))]
    exact updateCells_boundary size blk.start_index blk.new_values _ 0 k mat
      (hlow blk (List.mem_cons_self _ _)) hk

/-- The boundary rule holds of the freshly created matrix. -/
theorem makeMatrix_boundary (size : Nat) : boundaryOK size (makeMatrix size) := by
  intro i j hi hj hb
  have hmul : (i + 1) * size ≤ size * size := Nat.mul_le_mul_right size (by omega)
  have hmul2 : (i + 1) * size = i * size + size := by ring
  have hklt : i * size + j < size * size := by omega
  rw [makeMatrix_getD size _ hklt]
  rcases hb with hb | hb
  · subst hb
    rw [if_pos (Or.inl (by simp [Nat.div_eq_of_lt hj]))]
  · subst hb
    rw [if_pos (Or.inr (by simp [Nat.mul_mod_left]))]

/-- One solver iteration preserves the boundary rule and the block ranges'
    interior lower bound. -/
theorem solverStep_invariant (size : Nat) (thresh : ℚ) (st : SolverState)
    (hbd : boundaryOK size st.matrix) (hlow : blocksLow size st.blocks) :
    boundaryOK size ((solverStep size thresh st).1).matrix ∧
    blocksLow size ((solverStep size thresh st).1).blocks := by
  have hlow1 : blocksLow size
      (processAllBlocks size thresh st.matrix st.blocks false).1 := by
    intro blk1 h1
    obtain ⟨blk, hm, hs, _⟩ := processAllBlocks_ranges size thresh st.matrix
      st.blocks false blk1 h1
    rw [hs]
    exact hlow blk hm
  unfold solverStep
  by_cases hflag : (processAllBlocks size thresh st.matrix st.blocks false).2
  · rw [if_pos hflag]
    refine ⟨?_, hlow1⟩
    intro i j hi hj hb
    have hk : i * size + j < size ∨ (i * size + j) % size = 0 := by
      rcases hb with hb | hb
      · subst hb
        left
        omega
      · subst hb
        right
        simp [Nat.mul_mod_left]
    rw [updateMatrix_boundary size _ _ _ hlow1 hk]
    exact hbd i j hi hj hb
  · rw [if_neg hflag]
    exact ⟨hbd, hlow1⟩

/-- The boundary rule and the interior lower bound hold at every iteration of
    the run started from the program's initial state. -/
theorem solverIter_invariant (size : Nat) (thresh : ℚ) (scratch : List ℚ) (n : Nat) :
    boundaryOK size ((solverIter size thresh (runInit size scratch) n).matrix) ∧
    blocksLow size ((solverIter size thresh (runInit size scratch) n).blocks) := by
  induction n with
  | zero =>
    refine ⟨makeMatrix_boundary size, ?_⟩
    intro blk hb
    simp only [solverIter, runInit, List.mem_singleton] at hb
    subst hb
    exact Nat.le_refl size
  | succ m ih =>
    exact solverStep_invariant size thresh _ ih.1 ih.2

/-- C4: the claim states that every block's scratch buffer has one slot per
    index of the inclusive range [start, end], length end-start+1.  The source
    allocates only end_index - start_index doubles (line 84), while the loop
    writes relative indices 0..end-start (blockWriteIndices): at the program's
    own configuration (size 3, thread_count 1) the single block is [3,5], the
    buffer has 2 slots, and the loop's relative write index 2 is outside the
    allocated buffer. -/
theorem scratch_alloc_off_by_one :
    (makeBlocks 3 1).getD 0 none = some (allocBlock 3 5) ∧
    (allocBlock 3 5).new_values.length = 2 ∧
    2 ∈ blockWriteIndices (allocBlock 3 5) := by
  decide

/-- C6: the claim states that scratch buffers are zero-initialized at
    creation.  The source only mallocs them (line 84): the single block
    produced at size 3, thread_count 1 has indeterminate (uninitialized)
    scratch contents, modeled as none, not the rational 0. -/
theorem scratch_buffers_not_zeroed :
    (makeBlocks 3 1).getD 0 none = some (allocBlock 3 5) ∧
    (allocBlock 3 5).new_values = [none, none] := by
  decide

/-- C2 counterexample: at size 4 with 5 workers - within the claim's stated
    range, since 5 does not exceed the 8 mutable cells - makeBlocks stores
    only 4 equal blocks and no remainder block, leaving array entry 4
    uninitialized, contrary to the claim's "no uninitialized or empty block
    entries". -/
theorem partition_unwritten_entry_cex :
    3 ≤ 4 ∧ 1 ≤ 5 ∧ 5 ≤ mutatableCount 4 ∧
    (makeBlocks 4 5).getD 4 none = none := by
  decide

/-- C2 (amended): for every size at least 3 and worker count between 1 and
    the mutable-cell count, the block entries makeBlocks actually stores are
    nonempty, pairwise disjoint, and their ranges cover exactly the
    mutable-interior index range [size, size*size-size-1]; however (see the
    counterexample) some array entries may be left unwritten. -/
theorem makeBlocks_written_partition (size tc : Nat)
    (hsize : 3 ≤ size) (htc : 1 ≤ tc) (htcM : tc ≤ mutatableCount size) :
    (∀ k b, k < tc → (makeBlocks size tc).getD k none = some b →
        b.start_index ≤ b.end_index)
    ∧ (∀ k j b c idx, k < tc → j < tc → k ≠ j →
        (makeBlocks size tc).getD k none = some b →
        (makeBlocks size tc).getD j none = some c →
        b.start_index ≤ idx → idx ≤ b.end_index →
        ¬(c.start_index ≤ idx ∧ idx ≤ c.end_index))
    ∧ (∀ idx, (∃ k b, k < tc ∧ (makeBlocks size tc).getD k none = some b ∧
          b.start_index ≤ idx ∧ idx ≤ b.end_index)
        ↔ (size ≤ idx ∧ idx ≤ size * size - size - 1)) := by
  refine ⟨?_, ?_, ?_⟩
  · intro k b hk hb
    exact written_block_nonempty size tc k b hsize htc hk hb
  · intro k j b c idx hk hj hkj hb hc hs he
    rintro ⟨hcs, hce⟩
    have h1 := (block_contains_iff size tc k idx b hsize htc hk hb).1 ⟨hs, he⟩
    have h2 := (block_contains_iff size tc j idx c hsize htc hj hc).1 ⟨hcs, hce⟩
    omega
  · intro idx
    constructor
    · rintro ⟨k, b, hk, hb, hs, he⟩
      have h1 := (block_contains_iff size tc k idx b hsize htc hk hb).1 ⟨hs, he⟩
      exact ⟨h1.1, h1.2.1⟩
    · rintro ⟨hlo, hhi⟩
      obtain ⟨hklt, b, hb, hs, he⟩ := block_covers size tc idx hsize htc hlo hhi
      exact ⟨idxBlock size tc idx, b, hklt, hb, hs, he⟩

/-- C2 witness: the amended partition statement instantiated at size 3 with 2
    workers. -/
theorem makeBlocks_written_partition_witness :
    (3 ≤ 3 ∧ 1 ≤ 2 ∧ 2 ≤ mutatableCount 3) ∧
    ((∀ k b, k < 2 → (makeBlocks 3 2).getD k none = some b →
        b.start_index ≤ b.end_index)
    ∧ (∀ k j b c idx, k < 2 → j < 2 → k ≠ j →
        (makeBlocks 3 2).getD k none = some b →
        (makeBlocks 3 2).getD j none = some c →
        b.start_index ≤ idx → idx ≤ b.end_index →
        ¬(c.start_index ≤ idx ∧ idx ≤ c.end_index))
    ∧ (∀ idx, (∃ k b, k < 2 ∧ (makeBlocks 3 2).getD k none = some b ∧
          b.start_index ≤ idx ∧ idx ≤ b.end_index)
        ↔ (3 ≤ idx ∧ idx ≤ 3 * 3 - 3 - 1))) :=
  ⟨⟨by decide, by decide, by decide⟩,
   makeBlocks_written_partition 3 2 (by decide) (by decide) (by decide)⟩

/-- C7 counterexample: with 4 workers on a size-3 grid (3 mutable cells) the
    source raises no error of any kind: makeBlocks returns a well-defined
    array holding 3 single-cell blocks and one uninitialized entry, rather
    than failing with InvalidPartitionError as the claim states. -/
theorem no_partition_error_cex :
    mutatableCount 3 < 4 ∧
    makeBlocks 3 4 =
      [some (allocBlock 3 3), some (allocBlock 4 4), some (allocBlock 5 5), none] := by
  decide

/-- C7 (amended): when the worker count exceeds the mutable-cell count M,
    makeBlocks does not fail (the source has no error handling): it stores M
    single-cell blocks at indices 0..M-1 and leaves the remaining
    worker_count - M entries uninitialized. -/
theorem makeBlocks_excess_workers (size tc : Nat)
    (hsize : 3 ≤ size) (hover : mutatableCount size < tc) :
    ∀ k, k < tc → (makeBlocks size tc).getD k none =
      if k < mutatableCount size then some (allocBlock (size + k) (size + k))
      else none := by
  have hM := (mutatable_facts size hsize).1
  have htc0 : 0 < tc := by omega
  have hE : equalBlockSize size tc = 1 := by
    unfold equalBlockSize
    have h1 : 1 ≤ (mutatableCount size + tc - 1) / tc :=
      (Nat.le_div_iff_mul_le htc0).2 (by omega)
    have h2 : (mutatableCount size + tc - 1) / tc < 2 :=
      (Nat.div_lt_iff_lt_mul htc0).2 (by omega)
    omega
  have hL : lastBlockSize size tc = 0 := by
    unfold lastBlockSize
    rw [hE, Nat.mod_one]
  have hC : equalBlockCount size tc = mutatableCount size := by
    unfold equalBlockCount
    rw [hE, hL, Nat.sub_zero, Nat.div_one]
  intro k hk
  rw [makeBlocks_getD size tc k hk, if_neg (by simp [hL]), hC]
  by_cases hkM : k < mutatableCount size
  · rw [if_pos hkM, if_pos hkM]
    unfold eqBlock
    rw [hE]
    have h1 : size + 1 * k = size + k := by omega
    have h2 : size + 1 * (k + 1) - 1 = size + k := by omega
    rw [h1, h2]
  · rw [if_neg hkM, if_neg hkM]

/-- C7 witness: the amended statement instantiated at size 3 with 4 workers. -/
theorem makeBlocks_excess_workers_witness :
    (3 ≤ 3 ∧ mutatableCount 3 < 4) ∧
    (∀ k, k < 4 → (makeBlocks 3 4).getD k none =
      if k < mutatableCount 3 then some (allocBlock (3 + k) (3 + k)) else none) :=
  ⟨⟨by decide, by decide⟩, makeBlocks_excess_workers 3 4 (by decide) (by decide)⟩

/-- C8 counterexample: grid creation at size 2 does not fail: makeMatrix
    returns the 2x2 boundary-ruled grid instead of raising InvalidSizeError
    as the claim states (the source never validates the size). -/
theorem no_size_error_cex :
    (2 : Nat) < 3 ∧ makeMatrix 2 = [1, 1, 1, 0] := by
  refine ⟨by decide, ?_⟩
  have hr : List.range 2 = [0, 1] := by decide
  unfold makeMatrix
  rw [hr]
  norm_num [List.foldl_cons, List.foldl_nil, List.replicate]

/-- C8 (amended): makeMatrix performs no size validation: for every size
    below 3 it still returns a full size*size grid obeying the boundary rule
    instead of failing. -/
theorem makeMatrix_no_validation (size : Nat) (hsize : size < 3) :
    (makeMatrix size).length = size * size ∧
    ∀ k, k < size * size →
      (makeMatrix size).getD k 0 = if k / size = 0 ∨ k % size = 0 then 1 else 0 :=
  ⟨makeMatrix_length size, fun k hk => makeMatrix_getD size k hk⟩

/-- C8 witness: the amended statement instantiated at size 2. -/
theorem makeMatrix_no_validation_witness :
    (2 : Nat) < 3 ∧
    ((makeMatrix 2).length = 2 * 2 ∧
     ∀ k, k < 2 * 2 →
       (makeMatrix 2).getD k 0 = if k / 2 = 0 ∨ k % 2 = 0 then 1 else 0) :=
  ⟨by decide, makeMatrix_no_validation 2 (by decide)⟩

/-- C10: for every interior, non-edge index of the mutable range, the four
    neighbor indices read by getSuroundingAverage (top, right, bottom, left,
    as signed int arithmetic) lie inside the matrix buffer [0, size*size). -/
theorem neighbor_reads_in_bounds (size index : Int)
    (hsize : 3 ≤ size) (hlo : size ≤ index) (hhi : index ≤ size * size - size - 1)
    (hcol : index % size ≠ 0) (hcolr : (index + 1) % size ≠ 0) :
    ∀ m ∈ neighborIndicesZ size index, 0 ≤ m ∧ m < size * size := by
  intro m hm
  simp only [neighborIndicesZ, List.mem_cons, List.not_mem_nil, or_false] at hm
  rcases hm with h | h | h | h <;> subst h <;> constructor <;> linarith

/-- C10 witness: the bounds statement instantiated at size 3, index 4, the
    single interior-mutable cell of the 3x3 grid. -/
theorem neighbor_reads_in_bounds_witness :
    ((3:Int) ≤ 3 ∧ (3:Int) ≤ 4 ∧ (4:Int) ≤ 3 * 3 - 3 - 1 ∧
     (4:Int) % 3 ≠ 0 ∧ ((4:Int) + 1) % 3 ≠ 0) ∧
    (∀ m ∈ neighborIndicesZ 3 4, 0 ≤ m ∧ m < (3:Int) * 3) :=
  ⟨⟨by decide, by decide, by decide, by decide, by decide⟩,
   neighbor_reads_in_bounds 3 4 (by decide) (by decide) (by decide) (by decide) (by decide)⟩

/-- The concrete 3x3 starting grid: rows [1,1,1] / [1,0,0] / [1,0,0]. -/
theorem makeMatrix_three : makeMatrix 3 = [1, 1, 1, 1, 0, 0, 1, 0, 0] := by
  have hr : List.range 3 = [0, 1, 2] := by decide
  unfold makeMatrix
  rw [hr]
  norm_num [List.foldl_cons, List.foldl_nil, List.replicate]

/-- C1: the change test of processBlock is the source's signed comparison
    new - previous > threshold (line 128), not the absolute-difference test
    the claim states.  At size 3, threshold 10^-2, with previous scratch
    value 1 at the single interior slot and grid state giving a new average
    of 1/2: the value moves by |1/2 - 1| = 1/2, far beyond the threshold, yet
    no change is signaled because the signed difference is negative; the new
    value is nevertheless stored into the scratch slot. -/
theorem signed_change_test_misses_decrease :
    (processBlock 3 (decimalValue 2) [1, 1, 1, 1, 0, 0, 1, 0, 0]
        { start_index := 3, end_index := 5, new_values := [0, 1, 0] } false).2 = false ∧
    (processBlock 3 (decimalValue 2) [1, 1, 1, 1, 0, 0, 1, 0, 0]
        { start_index := 3, end_index := 5, new_values := [0, 1, 0] } false).1.new_values
      = [1, 1/2, 0] ∧
    |(1 : ℚ)/2 - 1| > decimalValue 2 := by
  refine ⟨?_, ?_, ?_⟩
  · norm_num [processBlock, processCells, getSuroundingAverage, decimalValue]
  · norm_num [processBlock, processCells, getSuroundingAverage, decimalValue]
  · have habs : |(1 : ℚ)/2 - 1| = 1/2 := by
      rw [abs_of_nonpos (by norm_num)]
      norm_num
    rw [habs]
    norm_num [decimalValue]

/-- C3: the run at size 3, precision 2, one worker, from the grid
    [1,1,1]/[1,0,0]/[1,0,0] with zero-initialized scratch: the first cycle
    computes 1/2 at linear index 4, raises the flag against the zero scratch
    value and commits; the second cycle recomputes 1/2, raises no flag, and
    the loop stops after exactly 2 cycles with the final grid
    [1,1,1]/[1,1/2,0]/[1,0,0]. -/
theorem size3_precision2_two_cycles :
    (processAllBlocks 3 (decimalValue 2) (makeMatrix 3)
        (runInit 3 [0, 0, 0]).blocks false).2 = true ∧
    (solverIter 3 (decimalValue 2) (runInit 3 [0, 0, 0]) 1).matrix
      = [1, 1, 1, 1, 1/2, 0, 1, 0, 0] ∧
    solverLoop 3 (decimalValue 2) 10 (runInit 3 [0, 0, 0]) 0
      = some ([1, 1, 1, 1, 1/2, 0, 1, 0, 0], 2) := by
  refine ⟨?_, ?_, ?_⟩
  · norm_num [processAllBlocks, processBlock, processCells, getSuroundingAverage,
      runInit, makeMatrix_three, decimalValue]
  · norm_num [solverIter, solverStep, processAllBlocks, processBlock, processCells,
      getSuroundingAverage, updateMatrix, updateCells, runInit, makeMatrix_three,
      decimalValue]
  · norm_num [solverLoop, solverStep, processAllBlocks, processBlock, processCells,
      getSuroundingAverage, updateMatrix, updateCells, runInit, makeMatrix_three,
      decimalValue]

/-- C5: at every point of the run with one worker - after grid creation,
    after each loop iteration (hence after every commit) and therefore at
    termination - every cell in row 0 or column 0 of the matrix holds exactly
    1: neither the relaxation pass (which only writes scratch buffers) nor
    the commit step ever writes a boundary cell.  The initial scratch
    contents are arbitrary. -/
theorem boundary_cells_fixed (size p n i j : Nat) (scratch : List ℚ)
    (hi : i < size) (hj : j < size) (hb : i = 0 ∨ j = 0) :
    ((solverIter size (decimalValue p) (runInit size scratch) n).matrix).getD
      (i * size + j) 0 = 1 :=
  (solverIter_invariant size (decimalValue p) scratch n).1 i j hi hj hb

/-- C5 witness: the boundary cell (0,2) of the size-3 run still holds 1 after
    two iterations. -/
theorem boundary_cells_fixed_witness :
    (0 < 3 ∧ 2 < 3 ∧ ((0 : Nat) = 0 ∨ (2 : Nat) = 0)) ∧
    ((solverIter 3 (decimalValue 2) (runInit 3 [0, 0, 0]) 2).matrix).getD
      (0 * 3 + 2) 0 = 1 :=
  ⟨⟨by decide, by decide, Or.inl rfl⟩,
   boundary_cells_fixed 3 2 2 0 2 [0, 0, 0] (by decide) (by decide) (Or.inl rfl)⟩

/-- C9: idempotence after convergence: if a full relaxation pass over
    well-sized blocks reports no change, then a second pass on the same
    (uncommitted, hence unchanged) matrix with the scratch buffers left by
    the first pass also reports no change - every slot already holds exactly
    the value the pass recomputes, so every difference is zero and never
    exceeds the nonnegative threshold 10^-p. -/
theorem second_pass_reports_no_change (size p : Nat) (matrix : List ℚ)
    (blocks : List BlockState)
    (hlen : ∀ blk ∈ blocks, blk.new_values.length = blk.end_index + 1 - blk.start_index)
    (hconv : (processAllBlocks size (decimalValue p) matrix blocks false).2 = false) :
    (processAllBlocks size (decimalValue p) matrix
      (processAllBlocks size (decimalValue p) matrix blocks false).1 false).2 = false := by
  have hth : (0 : ℚ) ≤ decimalValue p := pow_nonneg (by norm_num) p
  apply processAllBlocks_stable_flag _ _ _ _ _ hth
  intro blk hb
  exact (processAllBlocks_out size (decimalValue p) matrix blocks false hlen blk hb).2

/-- C9 witness: the converged size-3 state - matrix [1,1,1]/[1,1/2,0]/[1,0,0]
    with scratch [1,1/2,0] - satisfies both hypotheses, and a further pass
    reports no change. -/
theorem second_pass_reports_no_change_witness :
    ((∀ blk ∈ [BlockState.mk 3 5 [1, 1/2, 0]],
        blk.new_values.length = blk.end_index + 1 - blk.start_index) ∧
     (processAllBlocks 3 (decimalValue 2) [1, 1, 1, 1, 1/2, 0, 1, 0, 0]
        [BlockState.mk 3 5 [1, 1/2, 0]] false).2 = false) ∧
    (processAllBlocks 3 (decimalValue 2) [1, 1, 1, 1, 1/2, 0, 1, 0, 0]
      (processAllBlocks 3 (decimalValue 2) [1, 1, 1, 1, 1/2, 0, 1, 0, 0]
        [BlockState.mk 3 5 [1, 1/2, 0]] false).1 false).2 = false :=
  ⟨⟨by simp, by norm_num [processAllBlocks, processBlock, processCells,
      getSuroundingAverage, decimalValue]⟩,
   second_pass_reports_no_change 3 2 [1, 1, 1, 1, 1/2, 0, 1, 0, 0]
     [BlockState.mk 3 5 [1, 1/2, 0]] (by simp)
     (by norm_num [processAllBlocks, processBlock, processCells,
       getSuroundingAverage, decimalValue])⟩

end Relaxation
